import Mathlib

/-!
Formal model of `src/Validation/analyze_fleiss_kappa_agreement.py`.

The script computes Fleiss' Kappa from aggregated categorical counts.
Numeric values flow through numpy float64; we model the reals by `ℚ`
(every number occurring in the analysed computations is an exactly
representable rational) and keep the IEEE-754 special values explicit in
an extended domain `KVal`: `nan` (the undefined sentinel `np.nan`),
`inf`/`ninf` (the infinities produced by division by zero), and `val q`
for a finite value.  Division by zero follows IEEE-754: `0/0 = nan`,
`x/0 = ±inf` for `x ≠ 0`.
-/

/-- Extended value domain for the float results of the script:
`nan`, plus and minus infinity, or a finite rational. -/
inductive KVal where
  | nan : KVal
  | inf : KVal
  | ninf : KVal
  | val : ℚ → KVal
  deriving DecidableEq

/-- IEEE-754 division of two finite values: `0/0` is `nan`, a nonzero
numerator over `0` gives a signed infinity, otherwise exact division. -/
def fdiv (a b : ℚ) : KVal :=
  if b = 0 then
    if a = 0 then KVal.nan
    else if 0 < a then KVal.inf
    else KVal.ninf
  else KVal.val (a / b)

/-- IEEE-754 subtraction on the extended domain. -/
def KVal.sub : KVal → KVal → KVal
  | KVal.nan, _ => KVal.nan
  | _, KVal.nan => KVal.nan
  | KVal.inf, KVal.inf => KVal.nan
  | KVal.inf, _ => KVal.inf
  | KVal.ninf, KVal.ninf => KVal.nan
  | KVal.ninf, _ => KVal.ninf
  | KVal.val _, KVal.inf => KVal.ninf
  | KVal.val _, KVal.ninf => KVal.inf
  | KVal.val a, KVal.val b => KVal.val (a - b)

/-- IEEE-754 division on the extended domain (zero is the unsigned `+0`,
so `inf / 0 = inf`). -/
def KVal.div : KVal → KVal → KVal
  | KVal.nan, _ => KVal.nan
  | _, KVal.nan => KVal.nan
  | KVal.inf, KVal.inf => KVal.nan
  | KVal.inf, KVal.ninf => KVal.nan
  | KVal.ninf, KVal.inf => KVal.nan
  | KVal.ninf, KVal.ninf => KVal.nan
  | KVal.inf, KVal.val b => if b < 0 then KVal.ninf else KVal.inf
  | KVal.ninf, KVal.val b => if b < 0 then KVal.inf else KVal.ninf
  | KVal.val _, KVal.inf => KVal.val 0
  | KVal.val _, KVal.ninf => KVal.val 0
  | KVal.val a, KVal.val b => fdiv a b

/-- Comparison `kappa >= t` as evaluated on floats: `nan` compares
false against everything, `inf` is above every threshold. -/
def KVal.ge : KVal → ℚ → Bool
  | KVal.nan, _ => false
  | KVal.inf, _ => true
  | KVal.ninf, _ => false
  | KVal.val q, t => decide (t ≤ q)

/-- The `data_matrix` argument: a numpy 2-d array, kept as its list of
rows together with the column count of its shape (a `(0, k)` array has
no rows yet still records `k` columns). -/
structure DataMatrix where
  rows : List (List ℚ)
  cols : ℕ
  deriving DecidableEq

/-- `data_matrix.sum().sum()` — the total `N` of all entries. -/
def entrySum (M : DataMatrix) : ℚ :=
  (M.rows.map List.sum).sum

/-- `(data_matrix ** 2).sum().sum()` — the sum of the squares of all
entries. -/
def sqSum (M : DataMatrix) : ℚ :=
  (M.rows.map (fun r => (r.map (fun x => x ^ 2)).sum)).sum

/-- `data_matrix.sum(axis=0)[j]` — the sum of column `j`. -/
def colSum (M : DataMatrix) (j : ℕ) : ℚ :=
  (M.rows.map (fun r => r.getD j 0)).sum

/-- `(col_sums ** 2).sum()` — the sum of the squared column sums. -/
def colSqSum (M : DataMatrix) : ℚ :=
  ((List.range M.cols).map (fun j => (colSum M j) ^ 2)).sum

/-- `P = (data_matrix ** 2).sum().sum() / (N * (n - 1))` — the observed
agreement, a float division that hits a zero denominator when `n = 1`. -/
def observedP (M : DataMatrix) : KVal :=
  fdiv (sqSum M) (entrySum M * ((M.rows.length : ℚ) - 1))

/-- `Pe = (col_sums ** 2).sum() / (N ** 2)` — the expected agreement. -/
def expectedPe (M : DataMatrix) : KVal :=
  fdiv (colSqSum M) ((entrySum M) ^ 2)

/-- `calculate_fleiss_kappa(data_matrix)`: guards on an empty shape and
on `N == 0`, computes `P` and `Pe`, guards on `Pe == 1`, and otherwise
returns `(P - Pe) / (1 - Pe)`. -/
def calculate_fleiss_kappa (M : DataMatrix) : KVal :=
  if M.rows.length = 0 ∨ M.cols = 0 then KVal.nan
  else if entrySum M = 0 then KVal.nan
  else if expectedPe M = KVal.val 1 then KVal.nan
  else
    KVal.div (KVal.sub (observedP M) (expectedPe M))
      (KVal.sub (KVal.val 1) (expectedPe M))

/-- `interpret_fleiss_kappa(kappa)`: `pd.isna` sends `nan` to
"No data", then the Landis and Koch thresholds are tried from highest
to lowest. -/
def interpret_fleiss_kappa (kappa : KVal) : String :=
  if kappa = KVal.nan then "No data"
  else if kappa.ge (81 / 100) then "Almost perfect agreement"
  else if kappa.ge (61 / 100) then "Substantial agreement"
  else if kappa.ge (41 / 100) then "Moderate agreement"
  else if kappa.ge (21 / 100) then "Fair agreement"
  else if kappa.ge (1 / 100) then "Slight agreement"
  else "Poor agreement"

/-- The matrix built inside `analyze_agreement_by_question`: starting
from `np.zeros((total_responses, 3))`, the fill loops set column 0 on
the first `a` rows, column 1 on the next `b` rows and column 2 on the
last `c` rows, so the rows are `a` copies of `[1,0,0]`, then `b` copies
of `[0,1,0]`, then `c` copies of `[0,0,1]`. -/
def build_data_matrix (a b c : ℕ) : DataMatrix :=
  ⟨List.replicate a [1, 0, 0] ++ List.replicate b [0, 1, 0] ++
      List.replicate c [0, 0, 1], 3⟩

/-- The per-question kappa of the pipeline: build the one-hot matrix
from the counts and run `calculate_fleiss_kappa` on it. -/
def kappa_of_counts (a b c : ℕ) : KVal :=
  calculate_fleiss_kappa (build_data_matrix a b c)

/-- All entries of the matrix are non-negative. -/
def entriesNonneg (M : DataMatrix) : Prop :=
  ∀ r ∈ M.rows, ∀ x ∈ r, 0 ≤ x

instance (M : DataMatrix) : Decidable (entriesNonneg M) :=
  inferInstanceAs (Decidable (∀ r ∈ M.rows, ∀ x ∈ r, 0 ≤ x))

/-- One row of the loaded response table: its `Question`,
`Categorical Answers` and `Total` columns. -/
structure ResponseRow where
  question : String
  category : String
  total : ℚ
  deriving DecidableEq

/-- One record of the data frame `prepare_data_for_fleiss_kappa`
returns: the question with its three category counts and their sum. -/
structure QuestionSummary where
  question : String
  categoryA : ℚ
  categoryB : ℚ
  categoryC : ℚ
  totalResponses : ℚ
  deriving DecidableEq

/-- `df['Question'].unique()`: pandas scans the column and keeps each
value the first time it is seen, so the result lists the distinct
values in order of first appearance. -/
def uniqueFirst (l : List String) : List String :=
  l.foldl (fun acc q => if q ∈ acc then acc else acc ++ [q]) []

/-- `question_data[question_data['Categorical Answers'] == cat]['Total'].iloc[0]
if len(...) > 0 else 0`: the `Total` of the first row of the question
carrying the category label, or `0` when there is none. -/
def firstTotal (df : List ResponseRow) (q cat : String) : ℚ :=
  match df.filter (fun r => r.question = q ∧ r.category = cat) with
  | [] => 0
  | r :: _ => r.total

/-- The record appended to `fleiss_data` for one question. -/
def summaryFor (df : List ResponseRow) (q : String) : QuestionSummary :=
  ⟨q, firstTotal df q "A", firstTotal df q "B", firstTotal df q "C",
    firstTotal df q "A" + firstTotal df q "B" + firstTotal df q "C"⟩

/-- `prepare_data_for_fleiss_kappa(df)`: one summary per distinct
question of the input, in the order of `df['Question'].unique()`. -/
def prepare_data_for_fleiss_kappa (df : List ResponseRow) :
    List QuestionSummary :=
  (uniqueFirst (df.map ResponseRow.question)).map (summaryFor df)

/-- Specification-side reading of the output order, following the
spec's words: one entry per distinct question, "in the order questions
first appear in the input" — a question is listed when first seen and
its later repeats are dropped. -/
def firstAppearanceOrder : List String → List String
  | [] => []
  | q :: rest => q :: firstAppearanceOrder (rest.filter (fun x => x ≠ q))
termination_by l => l.length
decreasing_by
  simp only [List.length_cons]
  exact Nat.lt_succ_of_le (List.length_filter_le _ _)

/-! ### Helper lemmas -/

theorem length_rows_build (a b c : ℕ) :
    (build_data_matrix a b c).rows.length = a + b + c := by
  simp [build_data_matrix]
  omega

theorem entrySum_build (a b c : ℕ) :
    entrySum (build_data_matrix a b c) = (a : ℚ) + b + c := by
  simp [entrySum, build_data_matrix, List.sum_replicate]
  ring

theorem sqSum_build (a b c : ℕ) :
    sqSum (build_data_matrix a b c) = (a : ℚ) + b + c := by
  simp [sqSum, build_data_matrix, List.sum_replicate]
  ring

theorem colSum_build_zero (a b c : ℕ) :
    colSum (build_data_matrix a b c) 0 = (a : ℚ) := by
  simp [colSum, build_data_matrix, List.sum_replicate, List.getD]

theorem colSum_build_one (a b c : ℕ) :
    colSum (build_data_matrix a b c) 1 = (b : ℚ) := by
  simp [colSum, build_data_matrix, List.sum_replicate, List.getD]

theorem colSum_build_two (a b c : ℕ) :
    colSum (build_data_matrix a b c) 2 = (c : ℚ) := by
  simp [colSum, build_data_matrix, List.sum_replicate, List.getD]

theorem colSqSum_build (a b c : ℕ) :
    colSqSum (build_data_matrix a b c) = (a : ℚ) ^ 2 + b ^ 2 + c ^ 2 := by
  have h0 := colSum_build_zero a b c
  have h1 := colSum_build_one a b c
  have h2 := colSum_build_two a b c
  simp only [colSqSum]
  rw [show (build_data_matrix a b c).cols = 3 from rfl]
  rw [show List.range 3 = [0, 1, 2] from rfl]
  simp [h0, h1, h2]
  ring

theorem sum_map_sq_nonneg (l : List ℚ) :
    0 ≤ (l.map (fun x => x ^ 2)).sum := by
  apply List.sum_nonneg
  intro y hy
  obtain ⟨x, _, rfl⟩ := List.mem_map.mp hy
  positivity

theorem sum_eq_zero_of_sqsum_eq_zero (l : List ℚ)
    (h : (l.map (fun x => x ^ 2)).sum = 0) : l.sum = 0 := by
  induction l with
  | nil => rfl
  | cons x xs ih =>
    simp only [List.map_cons, List.sum_cons] at h ⊢
    have hx : 0 ≤ x ^ 2 := sq_nonneg x
    have hxs : 0 ≤ (xs.map (fun x => x ^ 2)).sum := sum_map_sq_nonneg xs
    have h1 : x ^ 2 = 0 := by linarith
    have h2 : (xs.map (fun x => x ^ 2)).sum = 0 := by linarith
    rw [pow_eq_zero_iff (by norm_num : 2 ≠ 0)] at h1
    rw [h1, ih h2, add_zero]

theorem sqSum_nonneg (M : DataMatrix) : 0 ≤ sqSum M := by
  apply List.sum_nonneg
  intro y hy
  obtain ⟨r, _, rfl⟩ := List.mem_map.mp hy
  exact sum_map_sq_nonneg r

theorem rows_sum_eq_zero_of_sq (rs : List (List ℚ))
    (h : (rs.map (fun r => (r.map (fun x => x ^ 2)).sum)).sum = 0) :
    (rs.map List.sum).sum = 0 := by
  induction rs with
  | nil => rfl
  | cons r rs ih =>
    simp only [List.map_cons, List.sum_cons] at h ⊢
    have h1 : 0 ≤ (r.map (fun x => x ^ 2)).sum := sum_map_sq_nonneg r
    have h2 : 0 ≤ (rs.map (fun r => (r.map (fun x => x ^ 2)).sum)).sum := by
      apply List.sum_nonneg
      intro y hy
      obtain ⟨r', _, rfl⟩ := List.mem_map.mp hy
      exact sum_map_sq_nonneg r'
    have h3 : (r.map (fun x => x ^ 2)).sum = 0 := by linarith
    have h4 : (rs.map (fun r => (r.map (fun x => x ^ 2)).sum)).sum = 0 := by
      linarith
    rw [sum_eq_zero_of_sqsum_eq_zero r h3, ih h4, add_zero]

theorem entrySum_eq_zero_of_sqSum_eq_zero (M : DataMatrix)
    (h : sqSum M = 0) : entrySum M = 0 :=
  rows_sum_eq_zero_of_sq M.rows h

theorem sqSum_pos_of_entrySum_ne_zero (M : DataMatrix)
    (h : entrySum M ≠ 0) : 0 < sqSum M := by
  rcases lt_or_eq_of_le (sqSum_nonneg M) with hlt | heq
  · exact hlt
  · exact absurd (entrySum_eq_zero_of_sqSum_eq_zero M heq.symm) h

theorem getD_nonneg (r : List ℚ) (hr : ∀ x ∈ r, 0 ≤ x) (j : ℕ) :
    0 ≤ r.getD j 0 := by
  rw [List.getD_eq_getElem?_getD]
  cases hj : r[j]? with
  | none => simp
  | some x => simpa using hr x (List.getElem?_mem hj)

theorem colSum_nonneg (M : DataMatrix) (h : entriesNonneg M) (j : ℕ) :
    0 ≤ colSum M j := by
  apply List.sum_nonneg
  intro y hy
  obtain ⟨r, hr, rfl⟩ := List.mem_map.mp hy
  exact getD_nonneg r (h r hr) j

theorem sum_range_getD_eq_sum_take (r : List ℚ) (k : ℕ) :
    ((List.range k).map (fun j => r.getD j 0)).sum = (r.take k).sum := by
  induction k with
  | zero => simp
  | succ k ih =>
    rw [List.range_succ, List.map_append, List.sum_append, ih,
      List.take_succ]
    rw [List.sum_append]
    congr 1
    simp [List.getD_eq_getElem?_getD]
    cases hk : r[k]? with
    | none => simp
    | some x => simp

theorem sum_take_le_sum (r : List ℚ) (hr : ∀ x ∈ r, 0 ≤ x) (k : ℕ) :
    (r.take k).sum ≤ r.sum := by
  conv_rhs => rw [← List.take_append_drop k r]
  rw [List.sum_append]
  have : 0 ≤ (r.drop k).sum := by
    apply List.sum_nonneg
    intro x hx
    exact hr x (List.mem_of_mem_drop hx)
  linarith

theorem sum_map_add_distrib {α : Type} (l : List α) (f g : α → ℚ) :
    (l.map (fun j => f j + g j)).sum = (l.map f).sum + (l.map g).sum := by
  induction l with
  | nil => simp
  | cons x xs ih =>
    simp only [List.map_cons, List.sum_cons, ih]
    ring

theorem sum_range_rows_le (k : ℕ) (rs : List (List ℚ))
    (h : ∀ r ∈ rs, ∀ x ∈ r, 0 ≤ x) :
    ((List.range k).map (fun j => (rs.map (fun r => r.getD j 0)).sum)).sum
      ≤ (rs.map List.sum).sum := by
  induction rs with
  | nil => simp
  | cons r rs ih =>
    simp only [List.map_cons, List.sum_cons]
    have hr : ∀ x ∈ r, 0 ≤ x := h r (List.mem_cons_self r rs)
    have hrest : ∀ r' ∈ rs, ∀ x ∈ r', 0 ≤ x :=
      fun r' hr' => h r' (List.mem_cons_of_mem r hr')
    rw [sum_map_add_distrib]
    have h1 : ((List.range k).map (fun j => r.getD j 0)).sum ≤ r.sum := by
      rw [sum_range_getD_eq_sum_take]
      exact sum_take_le_sum r hr k
    have h2 := ih hrest
    linarith

theorem sum_colSum_le_entrySum (M : DataMatrix) (h : entriesNonneg M) :
    ((List.range M.cols).map (fun j => colSum M j)).sum ≤ entrySum M :=
  sum_range_rows_le M.cols M.rows h

theorem sum_sq_le_sq_sum (l : List ℚ) (h : ∀ x ∈ l, 0 ≤ x) :
    (l.map (fun x => x ^ 2)).sum ≤ l.sum ^ 2 := by
  induction l with
  | nil => simp
  | cons x xs ih =>
    simp only [List.map_cons, List.sum_cons]
    have hx : 0 ≤ x := h x (List.mem_cons_self x xs)
    have hxs : ∀ y ∈ xs, 0 ≤ y := fun y hy => h y (List.mem_cons_of_mem x hy)
    have hsum : 0 ≤ xs.sum := List.sum_nonneg hxs
    have := ih hxs
    nlinarith

theorem colSqSum_le_sq_entrySum (M : DataMatrix) (h : entriesNonneg M) :
    colSqSum M ≤ (entrySum M) ^ 2 := by
  have h1 : ∀ x ∈ (List.range M.cols).map (fun j => colSum M j), 0 ≤ x := by
    intro x hx
    obtain ⟨j, _, rfl⟩ := List.mem_map.mp hx
    exact colSum_nonneg M h j
  have h2 : (((List.range M.cols).map (fun j => colSum M j)).map
      (fun x => x ^ 2)).sum
        ≤ (((List.range M.cols).map (fun j => colSum M j)).sum) ^ 2 :=
    sum_sq_le_sq_sum _ h1
  have h3 : colSqSum M = (((List.range M.cols).map
      (fun j => colSum M j)).map (fun x => x ^ 2)).sum := by
    unfold colSqSum
    rw [List.map_map]
    rfl
  have h4 := sum_colSum_le_entrySum M h
  have h5 : 0 ≤ ((List.range M.cols).map (fun j => colSum M j)).sum :=
    List.sum_nonneg h1
  calc colSqSum M
      ≤ (((List.range M.cols).map (fun j => colSum M j)).sum) ^ 2 := by
        rw [h3]; exact h2
    _ ≤ (entrySum M) ^ 2 := by nlinarith

theorem entrySum_nonneg (M : DataMatrix) (h : entriesNonneg M) :
    0 ≤ entrySum M := by
  apply List.sum_nonneg
  intro y hy
  obtain ⟨r, hr, rfl⟩ := List.mem_map.mp hy
  exact List.sum_nonneg (h r hr)

theorem mem_firstAppearanceOrder (l : List String) (x : String) :
    x ∈ firstAppearanceOrder l ↔ x ∈ l := by
  induction l using firstAppearanceOrder.induct with
  | case1 => simp [firstAppearanceOrder]
  | case2 q rest ih =>
    rw [firstAppearanceOrder]
    by_cases hx : x = q
    · subst hx; simp
    · simp only [List.mem_cons, ih, List.mem_filter]
      constructor
      · rintro (h | ⟨h, _⟩)
        · exact Or.inl h
        · exact Or.inr h
      · rintro (h | h)
        · exact Or.inl h
        · exact Or.inr ⟨h, by simp [hx]⟩

theorem nodup_firstAppearanceOrder (l : List String) :
    (firstAppearanceOrder l).Nodup := by
  induction l using firstAppearanceOrder.induct with
  | case1 => simp [firstAppearanceOrder]
  | case2 q rest ih =>
    rw [firstAppearanceOrder]
    refine List.Nodup.cons ?_ ih
    intro hq
    have := (mem_firstAppearanceOrder _ q).mp hq
    simp [List.mem_filter] at this

theorem foldl_uniqueFirst_aux (l : List String) : ∀ acc : List String,
    l.foldl (fun acc q => if q ∈ acc then acc else acc ++ [q]) acc
      = acc ++ firstAppearanceOrder (l.filter (fun x => x ∉ acc)) := by
  induction l with
  | nil => intro acc; simp [firstAppearanceOrder]
  | cons q rest ih =>
    intro acc
    rw [List.foldl_cons]
    by_cases hq : q ∈ acc
    · rw [if_pos hq, ih acc]
      congr 2
      rw [List.filter_cons]
      simp [hq]
    · rw [if_neg hq, ih (acc ++ [q])]
      rw [List.filter_cons]
      have hcond : decide (q ∉ acc) = true := by simp [hq]
      rw [hcond]
      simp only [if_pos]
      rw [firstAppearanceOrder]
      rw [List.append_assoc, List.singleton_append]
      congr 2
      rw [List.filter_filter]
      congr 1
      apply List.filter_congr
      intro x hx
      simp [List.mem_append, not_or, and_comm]

theorem uniqueFirst_eq_firstAppearanceOrder (l : List String) :
    uniqueFirst l = firstAppearanceOrder l := by
  have h := foldl_uniqueFirst_aux l []
  simp only [List.nil_append] at h
  rw [uniqueFirst, h]
  congr 1
  apply List.filter_eq_self.mpr
  intro x _
  simp

/-! ### Claim theorems -/

/-- C3: `calculate_fleiss_kappa` returns the undefined sentinel whenever
the matrix has zero rows or zero columns or total entry sum `N = 0`;
a `QuestionSummary` with `total_responses = 0` yields the 0-row,
3-column matrix, an undefined kappa and the label "No data". -/
theorem C3_degenerate_input_undefined :
    (∀ M : DataMatrix,
      M.rows.length = 0 ∨ M.cols = 0 ∨ entrySum M = 0 →
        calculate_fleiss_kappa M = KVal.nan)
    ∧ (∀ a b c : ℕ, a + b + c = 0 →
        build_data_matrix a b c = ⟨[], 3⟩
        ∧ kappa_of_counts a b c = KVal.nan
        ∧ interpret_fleiss_kappa (kappa_of_counts a b c) = "No data") := by
  constructor
  · intro M h
    unfold calculate_fleiss_kappa
    split_ifs with h1 h2 h3 <;> first | rfl | (exfalso; tauto)
  · intro a b c h
    have ha : a = 0 := by omega
    have hb : b = 0 := by omega
    have hc : c = 0 := by omega
    subst ha; subst hb; subst hc
    exact ⟨rfl, rfl, rfl⟩

/-- C4 counterexample: for the unanimous counts A=10, B=0, C=0 the
observed agreement `P` computed by the code is `10 / (10 * 9) = 1/9`,
not `1` as the claim states. -/
theorem C4_counterexample :
    observedP (build_data_matrix 10 0 0) = KVal.val (1 / 9)
    ∧ KVal.val ((1 : ℚ) / 9) ≠ KVal.val 1 := by
  constructor
  · rw [observedP, sqSum_build, entrySum_build, length_rows_build]
    rw [fdiv, if_neg (by norm_num)]
    norm_num
  · simp only [ne_eq, KVal.val.injEq]
    norm_num

/-- C4 (amended): whenever the computed `Pe` equals 1,
`calculate_fleiss_kappa` returns the undefined sentinel; for the
unanimous counts A=10, B=0, C=0 the computation yields `P = 1/9` and
`Pe = 1`, kappa is undefined and the interpreted label is "No data". -/
theorem C4_pe_one_undefined :
    (∀ M : DataMatrix, expectedPe M = KVal.val 1 →
      calculate_fleiss_kappa M = KVal.nan)
    ∧ observedP (build_data_matrix 10 0 0) = KVal.val (1 / 9)
    ∧ expectedPe (build_data_matrix 10 0 0) = KVal.val 1
    ∧ kappa_of_counts 10 0 0 = KVal.nan
    ∧ interpret_fleiss_kappa (kappa_of_counts 10 0 0) = "No data" := by
  have hPe : expectedPe (build_data_matrix 10 0 0) = KVal.val 1 := by
    rw [expectedPe, colSqSum_build, entrySum_build]
    rw [fdiv, if_neg (by norm_num)]
    norm_num
  have hmain : ∀ M : DataMatrix, expectedPe M = KVal.val 1 →
      calculate_fleiss_kappa M = KVal.nan := by
    intro M h
    unfold calculate_fleiss_kappa
    split_ifs with h1 h2 h3 <;> first | rfl | (exact absurd h h3)
  have hk : kappa_of_counts 10 0 0 = KVal.nan :=
    hmain (build_data_matrix 10 0 0) hPe
  refine ⟨hmain, ?_, hPe, hk, ?_⟩
  · rw [observedP, sqSum_build, entrySum_build, length_rows_build]
    rw [fdiv, if_neg (by norm_num)]
    norm_num
  · rw [hk]
    rfl

/-- C9: for every `QuestionSummary` with a single response
(`a + b + c = 1`) the pipeline kappa is the undefined sentinel. -/
theorem C9_single_response_undefined (a b c : ℕ) (h : a + b + c = 1) :
    kappa_of_counts a b c = KVal.nan := by
  have hcase : (a = 1 ∧ b = 0 ∧ c = 0) ∨ (a = 0 ∧ b = 1 ∧ c = 0)
      ∨ (a = 0 ∧ b = 0 ∧ c = 1) := by omega
  have hone : ∀ x y z : ℕ, x + y + z = 1 →
      expectedPe (build_data_matrix x y z) = KVal.val 1 := by
    intro x y z hxyz
    rw [expectedPe, colSqSum_build, entrySum_build]
    have : (x = 1 ∧ y = 0 ∧ z = 0) ∨ (x = 0 ∧ y = 1 ∧ z = 0)
        ∨ (x = 0 ∧ y = 0 ∧ z = 1) := by omega
    rcases this with ⟨h1, h2, h3⟩ | ⟨h1, h2, h3⟩ | ⟨h1, h2, h3⟩ <;>
      subst h1 <;> subst h2 <;> subst h3 <;>
      (rw [fdiv, if_neg (by norm_num)]; norm_num)
  have hN : entrySum (build_data_matrix a b c) = 1 := by
    rw [entrySum_build]
    have : ((a + b + c : ℕ) : ℚ) = 1 := by rw [h]; norm_num
    push_cast at this
    linarith
  unfold kappa_of_counts calculate_fleiss_kappa
  rw [if_neg, if_neg (by rw [hN]; norm_num), if_pos (hone a b c h)]
  push_neg
  constructor
  · rw [length_rows_build]; omega
  · rw [show (build_data_matrix a b c).cols = 3 from rfl]; omega

/-- C9 witness: the single-response counts (1, 0, 0) give the undefined
sentinel. -/
theorem C9_single_response_undefined_witness :
    kappa_of_counts 1 0 0 = KVal.nan :=
  C9_single_response_undefined 1 0 0 rfl

/-- C1: on a matrix of non-negative numbers with more than one row, at
least one column, positive total `N` and `Pe ≠ 1`, the function returns
`(P - Pe) / (1 - Pe)` with `P = sqSum / (N * (n - 1))` and
`Pe = colSqSum / N ^ 2`. -/
theorem C1_kappa_formula (M : DataMatrix)
    (h1 : 1 < M.rows.length) (h2 : 0 < M.cols)
    (h3 : entriesNonneg M) (h4 : 0 < entrySum M)
    (h5 : colSqSum M / (entrySum M) ^ 2 ≠ 1) :
    calculate_fleiss_kappa M =
      KVal.val ((sqSum M / (entrySum M * ((M.rows.length : ℚ) - 1))
          - colSqSum M / (entrySum M) ^ 2)
        / (1 - colSqSum M / (entrySum M) ^ 2)) := by
  have hN : entrySum M ≠ 0 := ne_of_gt h4
  have hn1 : (1 : ℚ) < (M.rows.length : ℚ) := by exact_mod_cast h1
  have hden : entrySum M * ((M.rows.length : ℚ) - 1) ≠ 0 :=
    mul_ne_zero hN (by linarith)
  have hN2 : (entrySum M) ^ 2 ≠ 0 := pow_ne_zero _ hN
  have hP : observedP M
      = KVal.val (sqSum M / (entrySum M * ((M.rows.length : ℚ) - 1))) := by
    rw [observedP, fdiv, if_neg hden]
  have hPe : expectedPe M = KVal.val (colSqSum M / (entrySum M) ^ 2) := by
    rw [expectedPe, fdiv, if_neg hN2]
  unfold calculate_fleiss_kappa
  rw [if_neg (by push_neg; omega), if_neg hN, if_neg (by rw [hPe]; simp [h5])]
  rw [hP, hPe]
  show KVal.div (KVal.val _) (KVal.val _) = _
  rw [KVal.div, fdiv, if_neg (by intro hc; apply h5; linarith)]

/-- C1 witness: the even split A=5, B=5, C=0 satisfies every hypothesis
and the formula evaluates there. -/
theorem C1_kappa_formula_witness :
    calculate_fleiss_kappa (build_data_matrix 5 5 0) =
      KVal.val ((sqSum (build_data_matrix 5 5 0)
          / (entrySum (build_data_matrix 5 5 0)
            * (((build_data_matrix 5 5 0).rows.length : ℚ) - 1))
          - colSqSum (build_data_matrix 5 5 0)
            / (entrySum (build_data_matrix 5 5 0)) ^ 2)
        / (1 - colSqSum (build_data_matrix 5 5 0)
            / (entrySum (build_data_matrix 5 5 0)) ^ 2)) :=
  C1_kappa_formula (build_data_matrix 5 5 0)
    (by rw [length_rows_build]; omega)
    (by norm_num [build_data_matrix])
    (by
      intro r hr x hx
      simp only [build_data_matrix, List.mem_append, List.mem_replicate] at hr
      rcases hr with (⟨_, rfl⟩ | ⟨_, rfl⟩) | ⟨_, rfl⟩ <;>
        (simp at hx; rcases hx with rfl | rfl | rfl <;> norm_num)
    )
    (by rw [entrySum_build]; norm_num)
    (by rw [colSqSum_build, entrySum_build]; norm_num)

/-- C7: reordering the rows of a matrix never changes the computed
kappa. -/
theorem C7_row_permutation_invariant (M : DataMatrix)
    (rows' : List (List ℚ)) (h : rows'.Perm M.rows) :
    calculate_fleiss_kappa ⟨rows', M.cols⟩ = calculate_fleiss_kappa M := by
  have hlen : (⟨rows', M.cols⟩ : DataMatrix).rows.length
      = M.rows.length := h.length_eq
  have hcols : (⟨rows', M.cols⟩ : DataMatrix).cols = M.cols := rfl
  have hN : entrySum ⟨rows', M.cols⟩ = entrySum M := by
    unfold entrySum
    exact (h.map List.sum).sum_eq
  have hsq : sqSum ⟨rows', M.cols⟩ = sqSum M := by
    unfold sqSum
    exact (h.map (fun r => (r.map (fun x => x ^ 2)).sum)).sum_eq
  have hcol : ∀ j, colSum ⟨rows', M.cols⟩ j = colSum M j := by
    intro j
    unfold colSum
    exact (h.map (fun r => r.getD j 0)).sum_eq
  have hcs : colSqSum ⟨rows', M.cols⟩ = colSqSum M := by
    unfold colSqSum
    congr 1
    apply List.map_congr_left
    intro j _
    rw [hcol]
  have hP : observedP ⟨rows', M.cols⟩ = observedP M := by
    unfold observedP
    rw [hN, hsq, hlen]
    
  have hPe : expectedPe ⟨rows', M.cols⟩ = expectedPe M := by
    unfold expectedPe
    rw [hN, hcs]
  unfold calculate_fleiss_kappa
  rw [hN, hP, hPe, hlen, hcols]

/-- C7 witness: swapping the two rows of a concrete matrix leaves the
kappa unchanged. -/
theorem C7_row_permutation_invariant_witness :
    calculate_fleiss_kappa ⟨[[0, 1], [1, 0]], 2⟩
      = calculate_fleiss_kappa ⟨[[1, 0], [0, 1]], 2⟩ :=
  C7_row_permutation_invariant ⟨[[1, 0], [0, 1]], 2⟩ [[0, 1], [1, 0]]
    (List.Perm.swap ([1, 0] : List ℚ) [0, 1] [])

/-- C2 counterexample: the one-row matrix `[[1, 1, 0]]` has
non-negative entries, yet `calculate_fleiss_kappa` returns the
infinity produced by the unguarded division by `N * (n - 1) = 0`,
not the undefined sentinel. -/
theorem C2_counterexample :
    calculate_fleiss_kappa ⟨[[1, 1, 0]], 3⟩ = KVal.inf
    ∧ (⟨[[1, 1, 0]], 3⟩ : DataMatrix).rows.length = 1
    ∧ entriesNonneg ⟨[[1, 1, 0]], 3⟩
    ∧ KVal.inf ≠ KVal.nan := by
  refine ⟨?_, rfl, ?_, by simp⟩
  · norm_num [calculate_fleiss_kappa, observedP, expectedPe, entrySum,
      sqSum, colSum, colSqSum, fdiv, KVal.sub, KVal.div, List.range_succ]
  · intro r hr x hx
    simp only [List.mem_singleton] at hr
    subst hr
    simp at hx
    rcases hx with rfl | rfl | rfl <;> norm_num

/-- C2 (amended): `calculate_fleiss_kappa` has no explicit guard for a
single-row matrix.  For every matrix with exactly one row, a positive
column count, non-negative entries and nonzero total `N`, the division
by `N * (n - 1) = 0` makes `P` infinite, and the function returns the
undefined sentinel exactly when `Pe = 1` (which does hold for the
pipeline's one-hot rows) and `+inf` otherwise. -/
theorem C2_single_row_unguarded (M : DataMatrix)
    (h1 : M.rows.length = 1) (h2 : 0 < M.cols)
    (h3 : entriesNonneg M) (h4 : entrySum M ≠ 0) :
    calculate_fleiss_kappa M =
      (if colSqSum M = (entrySum M) ^ 2 then KVal.nan else KVal.inf) := by
  have hN2 : (entrySum M) ^ 2 ≠ 0 := pow_ne_zero _ h4
  have hNpos : 0 < entrySum M :=
    lt_of_le_of_ne (entrySum_nonneg M h3) (Ne.symm h4)
  have hN2pos : 0 < (entrySum M) ^ 2 := pow_pos hNpos 2
  have hPe : expectedPe M = KVal.val (colSqSum M / (entrySum M) ^ 2) := by
    rw [expectedPe, fdiv, if_neg hN2]
  have hsq : 0 < sqSum M := sqSum_pos_of_entrySum_ne_zero M h4
  have hP : observedP M = KVal.inf := by
    rw [observedP, h1]
    rw [show ((1 : ℕ) : ℚ) - 1 = 0 by norm_num, mul_zero]
    rw [fdiv, if_pos rfl, if_neg (ne_of_gt hsq), if_pos hsq]
  unfold calculate_fleiss_kappa
  rw [if_neg (by push_neg; omega), if_neg h4]
  by_cases hc : colSqSum M = (entrySum M) ^ 2
  · rw [if_pos, if_pos hc]
    rw [hPe, hc, div_self hN2]
  · have hlt : colSqSum M < (entrySum M) ^ 2 :=
      lt_of_le_of_ne (colSqSum_le_sq_entrySum M h3) hc
    have hpe1 : colSqSum M / (entrySum M) ^ 2 < 1 :=
      (div_lt_one hN2pos).mpr hlt
    rw [if_neg (by rw [hPe]; simp only [KVal.val.injEq]; exact ne_of_lt hpe1)]
    rw [if_neg hc, hP, hPe]
    show KVal.div KVal.inf (KVal.val (1 - colSqSum M / entrySum M ^ 2))
      = KVal.inf
    simp only [KVal.div]
    rw [if_neg (not_lt.mpr (by linarith))]

/-- C2 witness: the one-row matrix `[[2, 3, 0]]` has `Pe < 1`, so the
amended description gives `+inf` there. -/
theorem C2_single_row_unguarded_witness :
    calculate_fleiss_kappa ⟨[[2, 3, 0]], 3⟩ =
      (if colSqSum ⟨[[2, 3, 0]], 3⟩ = (entrySum ⟨[[2, 3, 0]], 3⟩) ^ 2
        then KVal.nan else KVal.inf) :=
  C2_single_row_unguarded ⟨[[2, 3, 0]], 3⟩ rfl (by norm_num)
    (by
      intro r hr x hx
      simp only [List.mem_singleton] at hr
      subst hr
      simp at hx
      rcases hx with rfl | rfl | rfl <;> norm_num)
    (by norm_num [entrySum])

/-- Evaluation of the interpreter on a finite value as a chain of
rational comparisons. -/
theorem interpret_val_eq_chain (q : ℚ) :
    interpret_fleiss_kappa (KVal.val q) =
      (if 81 / 100 ≤ q then "Almost perfect agreement"
      else if 61 / 100 ≤ q then "Substantial agreement"
      else if 41 / 100 ≤ q then "Moderate agreement"
      else if 21 / 100 ≤ q then "Fair agreement"
      else if 1 / 100 ≤ q then "Slight agreement"
      else "Poor agreement") := by
  simp [interpret_fleiss_kappa, KVal.ge]

/-- C5: the interpreter sends the undefined sentinel to "No data" and
partitions the finite kappa line into the six Landis and Koch bands:
each label is returned exactly on its band, so the bands are
contiguous, non-overlapping, and cover the whole line. -/
theorem C5_interpretation_bands :
    interpret_fleiss_kappa KVal.nan = "No data"
    ∧ ∀ q : ℚ,
      (interpret_fleiss_kappa (KVal.val q) = "Almost perfect agreement"
        ↔ 81 / 100 ≤ q)
      ∧ (interpret_fleiss_kappa (KVal.val q) = "Substantial agreement"
        ↔ 61 / 100 ≤ q ∧ q < 81 / 100)
      ∧ (interpret_fleiss_kappa (KVal.val q) = "Moderate agreement"
        ↔ 41 / 100 ≤ q ∧ q < 61 / 100)
      ∧ (interpret_fleiss_kappa (KVal.val q) = "Fair agreement"
        ↔ 21 / 100 ≤ q ∧ q < 41 / 100)
      ∧ (interpret_fleiss_kappa (KVal.val q) = "Slight agreement"
        ↔ 1 / 100 ≤ q ∧ q < 21 / 100)
      ∧ (interpret_fleiss_kappa (KVal.val q) = "Poor agreement"
        ↔ q < 1 / 100) := by
  refine ⟨rfl, fun q => ?_⟩
  rw [interpret_val_eq_chain]
  split_ifs with h1 h2 h3 h4 h5 <;>
    refine ⟨?_, ?_, ?_, ?_, ?_, ?_⟩ <;>
    simp only [String.reduceEq] <;>
    constructor <;>
    intro hh <;>
    first
      | rfl
      | trivial
      | linarith
      | (exact ⟨by linarith, by linarith⟩)
      | (exfalso; rcases hh with ⟨ha, hb⟩; linarith)
      | (exfalso; exact hh)
      | (exfalso; linarith)

/-- C6: the constructed rating matrix has shape `(a+b+c, 3)`, its first
`a` rows are `[1,0,0]`, the next `b` rows `[0,1,0]`, the last `c` rows
`[0,0,1]`; every row sums to 1, the column sums are `(a, b, c)` and the
total rating count `N` equals `a+b+c`. -/
theorem C6_matrix_construction (a b c : ℕ) :
    (build_data_matrix a b c).rows.length = a + b + c
    ∧ (build_data_matrix a b c).cols = 3
    ∧ (∀ i, i < a → (build_data_matrix a b c).rows.getD i [] = [1, 0, 0])
    ∧ (∀ i, a ≤ i → i < a + b →
        (build_data_matrix a b c).rows.getD i [] = [0, 1, 0])
    ∧ (∀ i, a + b ≤ i → i < a + b + c →
        (build_data_matrix a b c).rows.getD i [] = [0, 0, 1])
    ∧ (∀ r ∈ (build_data_matrix a b c).rows, r.sum = 1)
    ∧ colSum (build_data_matrix a b c) 0 = (a : ℚ)
    ∧ colSum (build_data_matrix a b c) 1 = (b : ℚ)
    ∧ colSum (build_data_matrix a b c) 2 = (c : ℚ)
    ∧ entrySum (build_data_matrix a b c) = (a : ℚ) + b + c := by
  refine ⟨length_rows_build a b c, rfl, ?_, ?_, ?_, ?_,
    colSum_build_zero a b c, colSum_build_one a b c,
    colSum_build_two a b c, entrySum_build a b c⟩
  · intro i hi
    simp only [build_data_matrix]
    rw [List.getD_append _ _ _ _ (by simp; omega)]
    rw [List.getD_append _ _ _ _ (by simp; omega)]
    simp only [List.getD_eq_getElem?_getD, List.getElem?_replicate]
    rw [if_pos (by omega)]
    rfl
  · intro i hai hi
    simp only [build_data_matrix]
    rw [List.getD_append _ _ _ _ (by simp; omega)]
    rw [List.getD_append_right _ _ _ _ (by simp; omega)]
    rw [List.length_replicate]
    simp only [List.getD_eq_getElem?_getD, List.getElem?_replicate]
    rw [if_pos (by omega)]
    rfl
  · intro i hai hi
    simp only [build_data_matrix]
    rw [List.getD_append_right _ _ _ _ (by simp; omega)]
    simp only [List.length_append, List.length_replicate]
    simp only [List.getD_eq_getElem?_getD, List.getElem?_replicate]
    rw [if_pos (by omega)]
    rfl
  · intro r hr
    simp only [build_data_matrix, List.mem_append, List.mem_replicate] at hr
    rcases hr with (h | h) | h <;> rw [h.2] <;> norm_num

/-- A question with no row for a category gets count 0. -/
theorem firstTotal_eq_zero (df : List ResponseRow) (q cat : String)
    (h : ∀ r ∈ df, ¬(r.question = q ∧ r.category = cat)) :
    firstTotal df q cat = 0 := by
  unfold firstTotal
  have hfil : df.filter (fun r => r.question = q ∧ r.category = cat) = [] := by
    apply List.filter_eq_nil_iff.mpr
    intro r hr
    simpa using h r hr
  rw [hfil]

theorem uniqueFirst_append_singleton_mem (l : List String) (q : String)
    (h : q ∈ l) : uniqueFirst (l ++ [q]) = uniqueFirst l := by
  have hmem : q ∈ l.foldl (fun acc q => if q ∈ acc then acc else acc ++ [q])
      [] := by
    have h1 := (mem_firstAppearanceOrder l q).mpr h
    rw [← uniqueFirst_eq_firstAppearanceOrder] at h1
    exact h1
  unfold uniqueFirst
  rw [List.foldl_append]
  simp only [List.foldl_cons, List.foldl_nil]
  rw [if_pos hmem]

theorem firstTotal_append_dup (df : List ResponseRow) (r : ResponseRow)
    (q cat : String)
    (hex : ∃ r' ∈ df, r'.question = r.question ∧ r'.category = r.category) :
    firstTotal (df ++ [r]) q cat = firstTotal df q cat := by
  unfold firstTotal
  rw [List.filter_append]
  by_cases hqc : r.question = q ∧ r.category = cat
  · obtain ⟨r', hr', hq', hc'⟩ := hex
    have hne : df.filter (fun x => x.question = q ∧ x.category = cat)
        ≠ [] := by
      apply List.ne_nil_of_mem
        (List.mem_filter.mpr ⟨hr', by simp [hq'.trans hqc.1, hc'.trans hqc.2]⟩)
    cases hf : df.filter (fun x => x.question = q ∧ x.category = cat) with
    | nil => exact absurd hf hne
    | cons x xs => rw [List.cons_append]
  · have hnil : List.filter
        (fun x => x.question = q ∧ x.category = cat) [r] = [] := by
      simp only [List.filter_cons, List.filter_nil]
      rw [if_neg (by simpa using hqc)]
    rw [hnil, List.append_nil]

/-- C10: a later row repeating an already seen (question, category)
pair is silently ignored: appending it changes nothing, and in the
concrete duplicate table the first `Total` (5) is kept, not summed
with the later 7 and not an error. -/
theorem C10_duplicate_rows_ignored :
    (∀ (df : List ResponseRow) (r : ResponseRow),
      (∃ r' ∈ df, r'.question = r.question ∧ r'.category = r.category) →
        prepare_data_for_fleiss_kappa (df ++ [r])
          = prepare_data_for_fleiss_kappa df)
    ∧ prepare_data_for_fleiss_kappa
        [⟨"Q1", "A", 5⟩, ⟨"Q1", "A", 7⟩]
      = [⟨"Q1", 5, 0, 0, 5⟩] := by
  constructor
  · intro df r hex
    obtain ⟨r', hr', hq', hc'⟩ := hex
    unfold prepare_data_for_fleiss_kappa
    rw [List.map_append]
    rw [show List.map ResponseRow.question [r] = [r.question] from rfl]
    rw [uniqueFirst_append_singleton_mem _ _
      (List.mem_map.mpr ⟨r', hr', hq'⟩)]
    apply List.map_congr_left
    intro q hq
    unfold summaryFor
    rw [firstTotal_append_dup df r q "A" ⟨r', hr', hq', hc'⟩,
      firstTotal_append_dup df r q "B" ⟨r', hr', hq', hc'⟩,
      firstTotal_append_dup df r q "C" ⟨r', hr', hq', hc'⟩]
  · simp [prepare_data_for_fleiss_kappa, uniqueFirst, summaryFor,
      firstTotal, List.filter_cons, List.filter_nil]

/-- C8: the aggregator produces exactly one summary per distinct
question, in first-appearance order; each summary takes the `Total` of
the first row of its question labelled "A", "B", "C" respectively, and
a question with no row for some category gets count 0 for it, not an
error. -/
theorem C8_prepare_grouping (df : List ResponseRow) :
    (prepare_data_for_fleiss_kappa df).map QuestionSummary.question
        = firstAppearanceOrder (df.map ResponseRow.question)
    ∧ ((prepare_data_for_fleiss_kappa df).map QuestionSummary.question).Nodup
    ∧ (∀ q : String,
        q ∈ (prepare_data_for_fleiss_kappa df).map QuestionSummary.question
          ↔ q ∈ df.map ResponseRow.question)
    ∧ (∀ s ∈ prepare_data_for_fleiss_kappa df,
        s.categoryA = firstTotal df s.question "A"
        ∧ s.categoryB = firstTotal df s.question "B"
        ∧ s.categoryC = firstTotal df s.question "C"
        ∧ s.totalResponses = s.categoryA + s.categoryB + s.categoryC)
    ∧ (∀ s ∈ prepare_data_for_fleiss_kappa df, ∀ cat : String,
        (∀ r ∈ df, r.question = s.question → r.category ≠ cat) →
          firstTotal df s.question cat = 0) := by
  have hmap : (prepare_data_for_fleiss_kappa df).map QuestionSummary.question
      = uniqueFirst (df.map ResponseRow.question) := by
    unfold prepare_data_for_fleiss_kappa
    rw [List.map_map]
    rw [show (QuestionSummary.question ∘ summaryFor df) = id from
      funext fun q => rfl]
    exact List.map_id _
  refine ⟨?_, ?_, ?_, ?_, ?_⟩
  · rw [hmap, uniqueFirst_eq_firstAppearanceOrder]
  · rw [hmap, uniqueFirst_eq_firstAppearanceOrder]
    exact nodup_firstAppearanceOrder _
  · intro q
    rw [hmap, uniqueFirst_eq_firstAppearanceOrder]
    exact mem_firstAppearanceOrder _ q
  · intro s hs
    obtain ⟨q, _, rfl⟩ := List.mem_map.mp hs
    exact ⟨rfl, rfl, rfl, rfl⟩
  · intro s hs cat hnone
    apply firstTotal_eq_zero
    intro r hr
    rintro ⟨h1, h2⟩
    exact hnone r hr h1 h2
